import Mathlib

/-!
# Lazada client: request signing, transport and token exchange

A shallow embedding of `lazada.go`.  Go strings are byte sequences, Go maps are
association lists with pairwise distinct keys whose `range` enumeration order is
chosen by the runtime, and the standard-library functions the client calls
(HMAC-SHA256, the Unicode branch of `strings.ToUpper`, the HTTP round trip, JSON
decoding of a token) are parameters of the model.
-/

namespace Lazada

/-! ## Strings -/

/-- A Go byte. -/
abbrev Byte := Fin 256

/-- A Go string: an immutable sequence of bytes, compared bytewise. -/
abbrev Str := List Byte

/-- The bytes of an ASCII string literal. -/
def str (s : String) : Str := s.data.map (fun ch => Fin.ofNat ch.toNat)

/-- Go `strings.Join(elems, sep)`. -/
def stringsJoin (elems : List Str) (sep : Str) : Str := sep.intercalate elems

/-- Go `sort.Strings`: the ascending (bytewise lexicographic) arrangement. -/
def sortStrings (a : List Str) : List Str := a.insertionSort (· ≤ ·)

/-- Go `strings.Contains(s, substr)`: some suffix of `s` starts with `substr`. -/
def stringsContains (s substr : Str) : Bool := s.tails.any (fun t => substr.isPrefixOf t)

/-- The ASCII branch of `strings.ToUpper` on one byte: `c -= 'a' - 'A'` for `'a' <= c <= 'z'`. -/
def upperByte (c : Byte) : Byte := if 97 ≤ c.val ∧ c.val ≤ 122 then c - 32 else c

/-- Go `hex.EncodeToString`: two characters of `hextable` per byte, high nibble first. -/
def hextable : Str := str "0123456789abcdef"

/-- Go `hex.EncodeToString`. -/
def hexEncode (src : List Byte) : Str :=
  src.flatMap (fun v => [hextable.getD (v.val >>> 4) 0, hextable.getD (v.val &&& 0x0f) 0])

/-- Go `int64` wrap-around of a mathematical integer. -/
def wrapInt64 (x : Int) : Int := (x + 2 ^ 63) % 2 ^ 64 - 2 ^ 63

/-- Decimal digits of a natural number, as bytes. -/
def decimal (n : Nat) : Str := (Nat.toDigits 10 n).map (fun ch => Fin.ofNat ch.toNat)

/-- Go `strconv.FormatInt(i, 10)`. -/
def FormatInt (i : Int) : Str := if i < 0 then str "-" ++ decimal i.natAbs else decimal i.toNat

/-- Standard-library functions the client calls, taken as parameters. -/
structure Lib where
  /-- HMAC-SHA256 of a message under a key: `hmac.New(sha256.New, key)`, `Write`, `Sum(nil)`. -/
  hmacSHA256 : Str → Str → List Byte
  /-- The branch `strings.Map(unicode.ToUpper, s)` of `strings.ToUpper`, taken for non-ASCII input. -/
  unicodeToUpper : Str → Str

/-- Go `strings.ToUpper`: ASCII-only input is handled bytewise (and returned as is when it
has no lower-case letter), anything else goes through the Unicode tables. -/
def ToUpper (L : Lib) (s : Str) : Str :=
  if s.all (fun c => decide (c.val < 0x80)) then
    if s.any (fun c => decide (97 ≤ c.val ∧ c.val ≤ 122)) then s.map upperByte else s
  else L.unicodeToUpper s

/-! ## Maps -/

/-- The assignment `m[k] = v` on the entries of a map. -/
def setEntry {V : Type} (k : Str) (v : V) : List (Str × V) → List (Str × V)
  | [] => [(k, v)]
  | e :: t => if e.1 = k then (k, v) :: t else e :: setEntry k v t

/-- The read `m[k]` on the entries of a map. -/
def lookupEntry {V : Type} (k : Str) : List (Str × V) → Option V
  | [] => none
  | e :: t => if e.1 = k then some e.2 else lookupEntry k t

/-- A Go `map[string]V`: entries with pairwise distinct keys. -/
structure GoMap (V : Type) where
  entries : List (Str × V)
  nodup : (entries.map Prod.fst).Nodup

namespace GoMap

/-- Go `make(map[string]V)`, also the `nil` map when read. -/
def empty {V : Type} : GoMap V := ⟨[], List.nodup_nil⟩

/-- Go `m[k] = v`. -/
def set {V : Type} (m : GoMap V) (k : Str) (v : V) : GoMap V :=
  ⟨setEntry k v m.entries, by
    have hkeys : ∀ l : List (Str × V), (setEntry k v l).map Prod.fst =
        if k ∈ l.map Prod.fst then l.map Prod.fst else l.map Prod.fst ++ [k] := by
      intro l
      induction l with
      | nil => simp [setEntry]
      | cons e t ih =>
        by_cases h : e.1 = k
        · simp [setEntry, h]
        · have h2 : ¬ k = e.1 := fun h3 => h h3.symm
          simp only [setEntry, h, if_false, List.map_cons, ih, List.mem_cons, h2, false_or]
          split <;> simp
    rw [hkeys]
    split
    · exact m.nodup
    · rename_i hk
      exact List.nodup_append.mpr ⟨m.nodup, List.nodup_singleton k, by
        intro a ha hb
        simp at hb
        exact hk (hb ▸ ha)⟩⟩

/-- Go `v, ok := m[k]`. -/
def get? {V : Type} (m : GoMap V) (k : Str) : Option V := lookupEntry k m.entries

end GoMap

/-- One `range` statement over a map: the runtime enumerates the entries in an order of
its choosing, every entry exactly once. -/
structure RangeOrder where
  enum : {V : Type} → List (Str × V) → List (Str × V)
  perm : ∀ {V : Type} (l : List (Str × V)), (enum l).Perm l

/-- The enumeration that follows the stored order. -/
def RangeOrder.stored : RangeOrder := ⟨fun l => l, fun l => List.Perm.refl l⟩

/-- The enumeration that follows the reverse of the stored order. -/
def RangeOrder.reversed : RangeOrder := ⟨fun l => l.reverse, fun l => List.reverse_perm l⟩

/-- The loop `for k, v := range src { dst[k] = v }`, with `src` enumerated as `l`. -/
def assignAll {V : Type} (dst : GoMap V) (l : List (Str × V)) : GoMap V :=
  l.foldl (fun acc e => acc.set e.1 e.2) dst

/-! ## URL values -/

/-- Go `url.Values`. -/
abbrev Values := GoMap (List Str)

/-- Go `Values.Set`. -/
def Values.Set (v : Values) (key value : Str) : Values := v.set key [value]

/-- Go `Values.Add`. -/
def Values.Add (v : Values) (key value : Str) : Values :=
  v.set key ((v.get? key).getD [] ++ [value])

/-- Go `url.shouldEscape(c, encodeQueryComponent)`: letters, digits and `-_.~` stay. -/
def shouldEscape (c : Byte) : Bool :=
  !((97 ≤ c.val && c.val ≤ 122) || (65 ≤ c.val && c.val ≤ 90) || (48 ≤ c.val && c.val ≤ 57)
    || c.val = 45 || c.val = 95 || c.val = 46 || c.val = 126)

/-- Upper-case hex digits used by `url.QueryEscape`. -/
def upperhex : Str := str "0123456789ABCDEF"

/-- Go `url.QueryEscape`. -/
def QueryEscape (s : Str) : Str :=
  s.flatMap (fun c =>
    if shouldEscape c then
      if c.val = 32 then [43]
      else [37, upperhex.getD (c.val >>> 4) 0, upperhex.getD (c.val &&& 15) 0]
    else [c])

/-- The pieces `key=value` written by `Values.Encode`, keys ascending. -/
def Values.encodeParts (o : RangeOrder) (v : Values) : List Str :=
  (sortStrings ((o.enum v.entries).map Prod.fst)).flatMap (fun k =>
    ((v.get? k).getD []).map (fun x => QueryEscape k ++ str "=" ++ QueryEscape x))

/-- Go `Values.Encode`: an ampersand is written before a piece when the buffer is not empty. -/
def Values.Encode (o : RangeOrder) (v : Values) : Str :=
  (Values.encodeParts o v).foldl
    (fun buf part => (if buf.length > 0 then buf ++ str "&" else buf) ++ part) []

/-! ## Client -/

/-- The client record. -/
structure Client where
  baseURL : Str
  authURL : Str
  callbackURL : Str
  appKey : Str
  appSecret : Str
  accessToken : Str
  Debug : Bool
deriving DecidableEq

/-- Go `NewClient`. -/
def NewClient (appKey appSecret : Str) : Client :=
  { baseURL := str "https://api.lazada.vn/rest"
    authURL := str "https://auth.lazada.com/oauth/authorize"
    callbackURL := str "https://4vn.app/lazada/authorized"
    appKey := appKey
    appSecret := appSecret
    accessToken := []
    Debug := false }

namespace Client

/-- Go `SetAccessToken`. -/
def SetAccessToken (me : Client) (token : Str) : Client := { me with accessToken := token }

/-- The enumeration orders of the `range` statements executed by one `buildQuery` call. -/
structure Orders where
  commonToMerged : RangeOrder
  paramsToMerged : RangeOrder
  mergedToArr : RangeOrder
  commonToValues : RangeOrder
  paramsToValues : RangeOrder
  encodeKeys : RangeOrder

/-- All loops follow the stored order. -/
def Orders.stored : Orders :=
  ⟨RangeOrder.stored, RangeOrder.stored, RangeOrder.stored, RangeOrder.stored,
    RangeOrder.stored, RangeOrder.stored⟩

/-- All loops follow the reverse of the stored order. -/
def Orders.reversed : Orders :=
  ⟨RangeOrder.reversed, RangeOrder.reversed, RangeOrder.reversed, RangeOrder.reversed,
    RangeOrder.reversed, RangeOrder.reversed⟩

/-- The `timestamp` value: `strconv.FormatInt(time.Now().Unix()*1000, 10)`, where `now` is
the clock reading `time.Now().Unix()`. -/
def timestamp (now : Int) : Str := FormatInt (wrapInt64 (now * 1000))

/-- The map `common` of `buildQuery` before `sign` is stored in it. -/
def reservedParams (me : Client) (now : Int) : GoMap Str :=
  let common : GoMap Str := GoMap.empty
  let common := common.set (str "app_key") me.appKey
  let common := common.set (str "timestamp") (timestamp now)
  let common := common.set (str "sign_method") (str "sha256")
  if me.accessToken ≠ [] then common.set (str "access_token") me.accessToken else common

/-- The map `merged` of `buildQuery`. -/
def mergedParams (o : Orders) (me : Client) (now : Int) (params : GoMap Str) : GoMap Str :=
  let merged : GoMap Str := GoMap.empty
  let merged := assignAll merged (o.commonToMerged.enum (reservedParams me now).entries)
  assignAll merged (o.paramsToMerged.enum params.entries)

/-- The slice `arr` of `buildQuery` before it is sorted. -/
def signedStrings (o : Orders) (me : Client) (now : Int) (params : GoMap Str) : List Str :=
  (o.mergedToArr.enum (mergedParams o me now params).entries).map (fun e => e.1 ++ e.2)

/-- The message written to the HMAC: `api + strings.Join(arr, "")` after `sort.Strings(arr)`. -/
def signedMessage (o : Orders) (me : Client) (now : Int) (api : Str) (params : GoMap Str) : Str :=
  api ++ stringsJoin (sortStrings (signedStrings o me now params)) []

/-- The value stored in `common["sign"]`. -/
def signature (o : Orders) (L : Lib) (me : Client) (now : Int) (api : Str)
    (params : GoMap Str) : Str :=
  ToUpper L (hexEncode (L.hmacSHA256 me.appSecret (signedMessage o me now api params)))

/-- The map `common` of `buildQuery` after `sign` is stored in it. -/
def commonParams (o : Orders) (L : Lib) (me : Client) (now : Int) (api : Str)
    (params : GoMap Str) : GoMap Str :=
  (reservedParams me now).set (str "sign") (signature o L me now api params)

/-- The loop `for k, v := range src { values.Set(k, v) }`, with `src` enumerated as `l`. -/
def setAll (values : Values) (l : List (Str × Str)) : Values :=
  l.foldl (fun acc e => acc.Set e.1 e.2) values

/-- The `url.Values` that `buildQuery` encodes. -/
def queryValues (o : Orders) (L : Lib) (me : Client) (now : Int) (method api : Str)
    (params : GoMap Str) : Values :=
  let values : Values := GoMap.empty
  let values := setAll values (o.commonToValues.enum (commonParams o L me now api params).entries)
  if ToUpper L method = str "GET" then setAll values (o.paramsToValues.enum params.entries)
  else values

/-- Go `buildQuery`. -/
def buildQuery (o : Orders) (L : Lib) (me : Client) (now : Int) (method api : Str)
    (params : GoMap Str) : Str :=
  Values.Encode o.encodeKeys (queryValues o L me now method api params)

/-! ## Transport -/

/-- A Go `error` value: made by `errors.New`, or by `errors.Wrap` around a cause. -/
inductive GoError where
  | new (msg : Str)
  | wrap (cause : GoError) (msg : Str)
deriving DecidableEq

/-- Go `errors.Wrap(err, msg)` of `github.com/pkg/errors`: `nil` stays `nil`. -/
def errorsWrap (err : Option GoError) (msg : Str) : Option GoError :=
  match err with
  | none => none
  | some e => some (GoError.wrap e msg)

/-- An HTTP request as the client builds it. -/
structure HttpRequest where
  method : Str
  url : Str
  header : List (Str × Str)
  body : Str
deriving DecidableEq

/-- What the client reads of an HTTP response: the status line, the bytes `ioutil.ReadAll`
returned and the error it reported. -/
structure HttpResponse where
  status : Str
  body : Str
  readErr : Option GoError
deriving DecidableEq

/-- The network: the outcome of `client.Do` for each request, and the requests sent so far. -/
structure Net where
  respond : HttpRequest → Except GoError HttpResponse
  sent : List HttpRequest

/-- Go `client.Do(req)`: the request is recorded and answered. -/
def Net.roundTrip (net : Net) (req : HttpRequest) : Except GoError HttpResponse × Net :=
  (net.respond req, { net with sent := net.sent ++ [req] })

/-- The request `get` builds: `http.NewRequest("GET", url, nil)` with the bearer header. -/
def getRequest (me : Client) (url : Str) : HttpRequest :=
  { method := str "GET", url := url
    header := [(str "Authorization", str "Bearer " ++ me.accessToken)], body := [] }

/-- Go `get`.  The debug log line is not modelled. -/
def get (me : Client) (net : Net) (url : Str) : (Str × Option GoError) × Net :=
  match net.roundTrip (getRequest me url) with
  | (Except.error err, net1) => (([], errorsWrap (some err) []), net1)
  | (Except.ok res, net1) =>
    let sbody := res.body
    if stringsContains sbody (str "AppCallLimit") then
      ((sbody, some (GoError.new (str "rate limit exceeded"))), net1)
    else ((sbody, errorsWrap res.readErr []), net1)

/-- The loop `for k, v := range data { form.Add(k, v) }`, with `data` enumerated as `l`. -/
def addAll (form : Values) (l : List (Str × Str)) : Values :=
  l.foldl (fun acc e => acc.Add e.1 e.2) form

/-- The request `post` builds: the form is filled from `data` and sent encoded as the body. -/
def postRequest (dataOrder encodeOrder : RangeOrder) (url : Str) (data : GoMap Str) :
    HttpRequest :=
  let form : Values := addAll GoMap.empty (dataOrder.enum data.entries)
  { method := str "POST", url := url, header := [], body := Values.Encode encodeOrder form }

/-- Go `post`.  The debug log line is not modelled; the receiver is read by nothing else. -/
def post (dataOrder encodeOrder : RangeOrder) (_me : Client) (net : Net) (url : Str)
    (data : GoMap Str) : (Str × Option GoError) × Net :=
  match net.roundTrip (postRequest dataOrder encodeOrder url data) with
  | (Except.error err, net1) => (([], errorsWrap (some err) []), net1)
  | (Except.ok res, net1) =>
    let sbody := res.body
    if stringsContains sbody (str "AppCallLimit") then
      (([], some (GoError.new (str "rate limit exceeded"))), net1)
    else ((res.body, errorsWrap res.readErr []), net1)

/-! ## Token exchange -/

/-- The `Token` message type and the two operations `GetAccessToken` applies to it; the
type is declared outside this file, so it is a parameter. -/
structure TokenCodec (Token : Type) where
  /-- Go `json.Unmarshal([]byte(body), token)` into a fresh `&Token` value. -/
  unmarshal : Str → Except GoError Token
  /-- The getter `token.GetAccessToken()`. -/
  accessTokenOf : Token → Str

/-- What a `GetAccessToken` call leaves behind: the two results, the client and the network. -/
structure TokenOutcome (Token : Type) where
  token : Option Token
  err : Option GoError
  client : Client
  net : Net

/-- Go `GetAccessToken`.  The log line is not modelled. -/
def GetAccessToken {Token : Type} (o : Orders) (dataOrder encodeOrder : RangeOrder) (L : Lib)
    (T : TokenCodec Token) (now : Int) (me : Client) (net : Net) (code : Str) :
    TokenOutcome Token :=
  if me.accessToken ≠ [] then { token := none, err := none, client := me, net := net }
  else
    let data : GoMap Str := GoMap.empty.set (str "code") code
    let path := str "/auth/token/create"
    let qs := buildQuery o L me now (str "POST") path data
    match post dataOrder encodeOrder me net
        (str "https://auth.lazada.com/rest" ++ path ++ str "?" ++ qs) data with
    | ((_, some err), net1) =>
      { token := none, err := errorsWrap (some err) [], client := me, net := net1 }
    | ((body, none), net1) =>
      match T.unmarshal body with
      | Except.error err =>
        { token := none, err := errorsWrap (some err) [], client := me, net := net1 }
      | Except.ok token =>
        { token := some token, err := none
          client := me.SetAccessToken (T.accessTokenOf token), net := net1 }

end Client

/-! ## Reference definitions the claims are stated against -/

/-- Upper-case hex encoding of a byte string, written out directly: two characters of
`0123456789ABCDEF` per byte, high nibble first. -/
def upperHexEncode (src : List Byte) : Str :=
  src.flatMap (fun v => [upperhex.getD (v.val / 16) 0, upperhex.getD (v.val % 16) 0])

/-- The byte is one of the characters `0`-`9` or `A`-`F`. -/
def isUpperHexDigit (c : Byte) : Prop := (48 ≤ c.val ∧ c.val ≤ 57) ∨ (65 ≤ c.val ∧ c.val ≤ 70)

/-- The reserved parameters as the specification lists them: `app_key`, `timestamp`,
`sign_method`, `sign`, and `access_token` when the client holds a token. -/
def reservedValue (me : Client) (ts sign : Str) (name : Str) : Option Str :=
  if name = str "app_key" then some me.appKey
  else if name = str "timestamp" then some ts
  else if name = str "sign_method" then some (str "sha256")
  else if name = str "sign" then some sign
  else if name = str "access_token" ∧ me.accessToken ≠ [] then some me.accessToken
  else none

/-- The entries of a map arranged by ascending key alone. -/
def sortByKey (l : List (Str × Str)) : List (Str × Str) :=
  l.insertionSort (fun a b => a.1 ≤ b.1)

/-- No key of the mapping is a proper initial segment of another key. -/
def NoKeyExtends (l : List (Str × Str)) : Prop :=
  ∀ a ∈ l, ∀ b ∈ l, a.1 <+: b.1 → a.1 = b.1

/-! ## Concrete inputs used to instantiate the statements -/

/-- A library instance: every digest is 32 zero bytes, non-ASCII text is left as is. -/
def sampleLib : Lib := ⟨fun _ _ => List.replicate 32 0, fun s => s⟩

/-- The client of the specification example: app key `K`, secret `S`, no access token. -/
def sampleClient : Client := NewClient (str "K") (str "S")

/-- The call parameters of the specification example: `item_id` is `123`. -/
def sampleParams : GoMap Str := GoMap.empty.set (str "item_id") (str "123")

/-- Call parameters that reuse the reserved name `app_key`, with the value `X`. -/
def collidingParams : GoMap Str := GoMap.empty.set (str "app_key") (str "X")

/-- The form data `GetAccessToken` posts: the authorization code under `code`. -/
def tokenData (code : Str) : GoMap Str := GoMap.empty.set (str "code") code

/-- The URL `GetAccessToken` posts to: the token endpoint of the authorization host with the
signed query. -/
def tokenURL (o : Client.Orders) (L : Lib) (me : Client) (now : Int) (code : Str) : Str :=
  str "https://auth.lazada.com/rest" ++ str "/auth/token/create" ++ str "?" ++
    Client.buildQuery o L me now (str "POST") (str "/auth/token/create") (tokenData code)

/-- A network that answers every request with status `200 OK` and the given body. -/
def answering (body : Str) : Client.Net :=
  ⟨fun _ => Except.ok ⟨str "200 OK", body, none⟩, []⟩

/-- A token codec over plain strings: the body is the token and its access token. -/
def plainCodec : Client.TokenCodec Str := ⟨fun body => Except.ok body, fun token => token⟩

/-- A mapping in which the key `a` is a proper initial segment of the key `ab`. -/
def extendingParams : GoMap Str := (GoMap.empty.set (str "a") (str "z")).set (str "ab") []

/-- Call parameters that reuse the reserved name `access_token`, with the value `X`. -/
def tokenParams : GoMap Str := GoMap.empty.set (str "access_token") (str "X")

/-- The value of an upper-case hex digit. -/
def hexDigitValue (c : Byte) : Nat := if c.val ≤ 57 then c.val - 48 else c.val - 55

/-- The value the query is expected to carry under a name: for GET the call parameter of
that name if there is one and the reserved parameter otherwise, for any other method the
reserved parameter only. -/
def queryParameter (me : Client) (ts sign : Str) (isGet : Bool) (params : GoMap Str)
    (name : Str) : Option Str :=
  if isGet then (params.get? name).or (reservedValue me ts sign name)
  else reservedValue me ts sign name

/-! ## Facts about maps -/

theorem lookupEntry_setEntry {V : Type} (k a : Str) (v : V) (l : List (Str × V)) :
    lookupEntry a (setEntry k v l) = if a = k then some v else lookupEntry a l := by
  induction l with
  | nil =>
    by_cases h : a = k
    · simp [setEntry, lookupEntry, h]
    · have h2 : ¬ k = a := fun h3 => h h3.symm
      simp [setEntry, lookupEntry, h, h2]
  | cons e t ih =>
    by_cases h : e.1 = k
    · by_cases h2 : a = k
      · simp [setEntry, lookupEntry, h, h2]
      · have h3 : ¬ k = a := fun h4 => h2 h4.symm
        simp [setEntry, lookupEntry, h, h2, h3]
    · by_cases h2 : e.1 = a
      · have h3 : ¬ a = k := fun h4 => h (h2.trans h4)
        simp [setEntry, lookupEntry, h, h2, h3]
      · simp [setEntry, lookupEntry, h, h2, ih]

theorem GoMap.get?_set {V : Type} (m : GoMap V) (k a : Str) (v : V) :
    (m.set k v).get? a = if a = k then some v else m.get? a :=
  lookupEntry_setEntry k a v m.entries

theorem lookupEntry_eq_none {V : Type} (a : Str) (l : List (Str × V))
    (h : a ∉ l.map Prod.fst) : lookupEntry a l = none := by
  induction l with
  | nil => rfl
  | cons e t ih =>
    simp only [List.map_cons, List.mem_cons, not_or] at h
    have h2 : ¬ e.1 = a := fun h3 => h.1 h3.symm
    simp [lookupEntry, h2, ih h.2]

theorem lookupEntry_eq_some_iff {V : Type} (a : Str) (v : V) (l : List (Str × V))
    (hl : (l.map Prod.fst).Nodup) : lookupEntry a l = some v ↔ (a, v) ∈ l := by
  induction l with
  | nil => simp [lookupEntry]
  | cons e t ih =>
    simp only [List.map_cons, List.nodup_cons] at hl
    by_cases h : e.1 = a
    · simp only [lookupEntry, h, if_true, Option.some.injEq, List.mem_cons]
      constructor
      · intro h2
        left
        rw [← h, ← h2]
      · rintro (h2 | h2)
        · rw [← h2]
        · exact absurd (List.mem_map_of_mem Prod.fst h2) (h ▸ hl.1)
    · simp only [lookupEntry, h, if_false, List.mem_cons, ih hl.2]
      constructor
      · exact Or.inr
      · rintro (h2 | h2)
        · exact absurd (congrArg Prod.fst h2).symm h
        · exact h2

theorem lookupEntry_perm {V : Type} (a : Str) {l l2 : List (Str × V)} (hp : l.Perm l2)
    (hl : (l.map Prod.fst).Nodup) : lookupEntry a l = lookupEntry a l2 := by
  have hl2 : (l2.map Prod.fst).Nodup := ((hp.map Prod.fst).nodup_iff).mp hl
  apply Option.ext
  intro v
  simp only [Option.mem_def]
  rw [lookupEntry_eq_some_iff a v l hl, lookupEntry_eq_some_iff a v l2 hl2]
  exact hp.mem_iff

theorem GoMap.perm_of_get?_eq {V : Type} (m m2 : GoMap V)
    (h : ∀ a, m.get? a = m2.get? a) : m.entries.Perm m2.entries := by
  rw [List.perm_ext_iff_of_nodup (List.Nodup.of_map _ m.nodup) (List.Nodup.of_map _ m2.nodup)]
  rintro ⟨a, v⟩
  rw [← lookupEntry_eq_some_iff a v _ m.nodup, ← lookupEntry_eq_some_iff a v _ m2.nodup]
  have := h a
  simp only [GoMap.get?] at this
  rw [this]

theorem get?_assignAll {V : Type} (a : Str) (l : List (Str × V)) (dst : GoMap V)
    (hl : (l.map Prod.fst).Nodup) :
    (assignAll dst l).get? a = (lookupEntry a l).or (dst.get? a) := by
  induction l generalizing dst with
  | nil => simp [assignAll, lookupEntry]
  | cons e t ih =>
    simp only [List.map_cons, List.nodup_cons] at hl
    have h1 : (assignAll dst (e :: t)).get? a = (assignAll (dst.set e.1 e.2) t).get? a := rfl
    rw [h1, ih _ hl.2, GoMap.get?_set]
    by_cases h : e.1 = a
    · have h2 : lookupEntry a t = none := lookupEntry_eq_none a t (h ▸ hl.1)
      simp [lookupEntry, h, h2]
    · have h2 : ¬ a = e.1 := fun h3 => h h3.symm
      simp [lookupEntry, h, h2]

theorem get?_assignAll_enum {V : Type} (r : RangeOrder) (a : Str) (src dst : GoMap V) :
    (assignAll dst (r.enum src.entries)).get? a = (src.get? a).or (dst.get? a) := by
  have hp := r.perm src.entries
  have hn : ((r.enum src.entries).map Prod.fst).Nodup :=
    ((hp.map Prod.fst).nodup_iff).mpr src.nodup
  rw [get?_assignAll a _ dst hn, lookupEntry_perm a hp hn]
  rfl

theorem sortStrings_perm {a b : List Str} (h : a.Perm b) : sortStrings a = sortStrings b := by
  apply List.eq_of_perm_of_sorted (r := (· ≤ ·))
  · exact ((List.perm_insertionSort _ a).trans h).trans (List.perm_insertionSort _ b).symm
  · exact List.sorted_insertionSort _ a
  · exact List.sorted_insertionSort _ b

/-! ## Facts about `buildQuery` -/

namespace Client

theorem get?_mergedParams (o : Orders) (me : Client) (now : Int) (params : GoMap Str) (a : Str) :
    (mergedParams o me now params).get? a
      = (params.get? a).or ((reservedParams me now).get? a) := by
  unfold mergedParams
  simp only [get?_assignAll_enum]
  have h : (GoMap.empty : GoMap Str).get? a = none := rfl
  rw [h, Option.or_none]

theorem mergedParams_perm (o o2 : Orders) (me : Client) (now : Int) (params : GoMap Str) :
    (mergedParams o me now params).entries.Perm (mergedParams o2 me now params).entries :=
  GoMap.perm_of_get?_eq _ _ (fun a => by rw [get?_mergedParams, get?_mergedParams])

theorem signedStrings_perm (o o2 : Orders) (me : Client) (now : Int) (params : GoMap Str) :
    (signedStrings o me now params).Perm (signedStrings o2 me now params) := by
  unfold signedStrings
  apply List.Perm.map
  exact ((o.mergedToArr.perm _).trans (mergedParams_perm o o2 me now params)).trans
    (o2.mergedToArr.perm _).symm

theorem signedMessage_order (o o2 : Orders) (me : Client) (now : Int) (api : Str)
    (params : GoMap Str) :
    signedMessage o me now api params = signedMessage o2 me now api params := by
  unfold signedMessage
  rw [sortStrings_perm (signedStrings_perm o o2 me now params)]

theorem signature_order (o o2 : Orders) (L : Lib) (me : Client) (now : Int) (api : Str)
    (params : GoMap Str) :
    signature o L me now api params = signature o2 L me now api params := by
  unfold signature
  rw [signedMessage_order o o2]

theorem setAll_eq_assignAll (l : List (Str × Str)) (dst : Values) :
    setAll dst l = assignAll dst (l.map (fun e => (e.1, [e.2]))) := by
  induction l generalizing dst with
  | nil => rfl
  | cons e t ih =>
    have h1 : setAll dst (e :: t) = setAll (dst.Set e.1 e.2) t := rfl
    rw [h1, ih]
    rfl

theorem lookupEntry_map {V W : Type} (f : V → W) (a : Str) (l : List (Str × V)) :
    lookupEntry a (l.map (fun e => (e.1, f e.2))) = (lookupEntry a l).map f := by
  induction l with
  | nil => rfl
  | cons e t ih =>
    by_cases h : e.1 = a
    · simp [lookupEntry, h]
    · simp [lookupEntry, h, ih]

theorem get?_setAll_enum (r : RangeOrder) (a : Str) (src : GoMap Str) (dst : Values) :
    (setAll dst (r.enum src.entries)).get? a
      = ((src.get? a).map (fun v => [v])).or (dst.get? a) := by
  have hp := r.perm src.entries
  have hn : ((r.enum src.entries).map Prod.fst).Nodup :=
    ((hp.map Prod.fst).nodup_iff).mpr src.nodup
  have hn2 : (((r.enum src.entries).map (fun e => (e.1, [e.2]))).map Prod.fst).Nodup := by
    rw [List.map_map]
    exact hn
  rw [setAll_eq_assignAll, get?_assignAll a _ dst hn2, lookupEntry_map (fun v => [v]),
    lookupEntry_perm a hp hn]
  rfl

theorem get?_queryValues (o : Orders) (L : Lib) (me : Client) (now : Int) (method api : Str)
    (params : GoMap Str) (a : Str) :
    (queryValues o L me now method api params).get? a
      = if ToUpper L method = str "GET" then
          ((params.get? a).or ((commonParams o L me now api params).get? a)).map (fun v => [v])
        else ((commonParams o L me now api params).get? a).map (fun v => [v]) := by
  have h : (GoMap.empty : Values).get? a = none := rfl
  unfold queryValues
  split
  · simp only [get?_setAll_enum, h, Option.or_none]
    cases params.get? a <;> rfl
  · simp only [get?_setAll_enum, h, Option.or_none]

theorem commonParams_order (o o2 : Orders) (L : Lib) (me : Client) (now : Int) (api : Str)
    (params : GoMap Str) :
    commonParams o L me now api params = commonParams o2 L me now api params := by
  unfold commonParams
  rw [signature_order o o2]

theorem encodeParts_congr (r r2 : RangeOrder) (v v2 : Values)
    (h : ∀ a, v.get? a = v2.get? a) : Values.encodeParts r v = Values.encodeParts r2 v2 := by
  unfold Values.encodeParts
  have hk : ((r.enum v.entries).map Prod.fst).Perm ((r2.enum v2.entries).map Prod.fst) :=
    List.Perm.map _ (((r.perm _).trans (GoMap.perm_of_get?_eq v v2 h)).trans (r2.perm _).symm)
  rw [sortStrings_perm hk]
  congr 1
  funext k
  rw [h k]

end Client

/-! ## Facts about hex encoding and upper-casing -/

set_option maxRecDepth 100000 in
theorem hextable_byte (v : Byte) :
    (hextable.getD (v.val >>> 4) 0).val < 128 ∧ (hextable.getD (v.val &&& 0x0f) 0).val < 128 ∧
    upperByte (hextable.getD (v.val >>> 4) 0) = upperhex.getD (v.val / 16) 0 ∧
    upperByte (hextable.getD (v.val &&& 0x0f) 0) = upperhex.getD (v.val % 16) 0 := by
  revert v
  decide

set_option maxRecDepth 100000 in
theorem upperhex_byte (v : Byte) :
    isUpperHexDigit (upperhex.getD (v.val / 16) 0) ∧
    isUpperHexDigit (upperhex.getD (v.val % 16) 0) := by
  revert v
  unfold isUpperHexDigit
  decide

theorem map_upperByte_of_no_lower (s : Str)
    (h : s.any (fun c => decide (97 ≤ c.val ∧ c.val ≤ 122)) = false) : s.map upperByte = s := by
  induction s with
  | nil => rfl
  | cons c t ih =>
    simp only [List.any_cons, Bool.or_eq_false_iff, decide_eq_false_iff_not] at h
    simp only [List.map_cons, ih h.2, upperByte, h.1, if_false]

theorem ToUpper_of_ascii (L : Lib) (s : Str) (h : ∀ c ∈ s, c.val < 128) :
    ToUpper L s = s.map upperByte := by
  unfold ToUpper
  have h1 : s.all (fun c => decide (c.val < 0x80)) = true := by
    rw [List.all_eq_true]
    intro c hc
    exact decide_eq_true (h c hc)
  rw [if_pos h1]
  split
  · rfl
  · rename_i h2
    exact (map_upperByte_of_no_lower s (by simpa using h2)).symm

theorem hexEncode_ascii (d : List Byte) : ∀ c ∈ hexEncode d, c.val < 128 := by
  intro c hc
  unfold hexEncode at hc
  rw [List.mem_flatMap] at hc
  obtain ⟨v, _, hv⟩ := hc
  simp only [List.mem_cons, List.mem_singleton, List.not_mem_nil, or_false] at hv
  rcases hv with rfl | rfl
  · exact (hextable_byte v).1
  · exact (hextable_byte v).2.1

theorem ToUpper_hexEncode (L : Lib) (d : List Byte) :
    ToUpper L (hexEncode d) = upperHexEncode d := by
  rw [ToUpper_of_ascii L _ (hexEncode_ascii d)]
  unfold hexEncode upperHexEncode
  induction d with
  | nil => rfl
  | cons v t ih =>
    simp only [List.flatMap_cons, List.map_append, ih, List.map_cons, List.map_nil,
      (hextable_byte v).2.2.1, (hextable_byte v).2.2.2]

theorem length_upperHexEncode (d : List Byte) : (upperHexEncode d).length = 2 * d.length := by
  unfold upperHexEncode
  induction d with
  | nil => rfl
  | cons v t ih =>
    simp only [List.flatMap_cons, List.length_append, ih, List.length_cons, List.length_nil]
    omega

theorem upperHexEncode_digits (d : List Byte) : ∀ c ∈ upperHexEncode d, isUpperHexDigit c := by
  intro c hc
  unfold upperHexEncode at hc
  rw [List.mem_flatMap] at hc
  obtain ⟨v, _, hv⟩ := hc
  simp only [List.mem_cons, List.mem_singleton, List.not_mem_nil, or_false] at hv
  rcases hv with rfl | rfl
  · exact (upperhex_byte v).1
  · exact (upperhex_byte v).2

theorem stringsJoin_nil (elems : List Str) : stringsJoin elems [] = elems.flatten := by
  unfold stringsJoin List.intercalate
  induction elems with
  | nil => rfl
  | cons a t ih =>
    cases t with
    | nil => simp [List.intersperse]
    | cons b t2 =>
      simp only [List.intersperse, List.flatten_cons, List.nil_append] at ih ⊢
      rw [ih]

/-! ## Facts about the transport -/

theorem stringsContains_iff (s substr : Str) :
    stringsContains s substr = true ↔ substr <:+: s := by
  unfold stringsContains
  rw [List.any_eq_true, List.infix_iff_prefix_suffix]
  constructor
  · rintro ⟨t, ht, hp⟩
    exact ⟨t, List.isPrefixOf_iff_prefix.mp hp, (List.mem_tails t s).mp ht⟩
  · rintro ⟨t, hp, ht⟩
    exact ⟨t, (List.mem_tails t s).mpr ht, List.isPrefixOf_iff_prefix.mpr hp⟩

/-! ## Facts about ordering by key -/

theorem lex_append_of_lex {k1 k2 : Str} (v1 v2 : Str) (h : List.Lex (· < ·) k1 k2)
    (hp : ¬ k1 <+: k2) : List.Lex (· < ·) (k1 ++ v1) (k2 ++ v2) := by
  induction h with
  | nil => exact absurd (List.nil_prefix) hp
  | @cons a l1 l2 _ ih =>
    have hp2 : ¬ l1 <+: l2 := fun h2 => hp ((List.prefix_cons_inj a).mpr h2)
    exact List.Lex.cons (ih hp2)
  | rel hr => exact List.Lex.rel hr

theorem sorted_sortByKey (l : List (Str × Str)) :
    (sortByKey l).Pairwise (fun a b => a.1 ≤ b.1) := by
  haveI : IsTotal (Str × Str) (fun a b => a.1 ≤ b.1) := ⟨fun a b => le_total a.1 b.1⟩
  haveI : IsTrans (Str × Str) (fun a b => a.1 ≤ b.1) := ⟨fun _ _ _ h1 h2 => le_trans h1 h2⟩
  exact List.sorted_insertionSort (fun a b : Str × Str => a.1 ≤ b.1) l

theorem perm_sortByKey (l : List (Str × Str)) : (sortByKey l).Perm l :=
  List.perm_insertionSort _ l

theorem sortStrings_eq_sortByKey (l : List (Str × Str)) (hn : (l.map Prod.fst).Nodup)
    (h : NoKeyExtends l) :
    sortStrings (l.map (fun e => e.1 ++ e.2)) = (sortByKey l).map (fun e => e.1 ++ e.2) := by
  have hperm := perm_sortByKey l
  have hle := sorted_sortByKey l
  have hne : (sortByKey l).Pairwise (fun a b => a.1 ≠ b.1) := by
    have h1 : ((sortByKey l).map Prod.fst).Nodup := ((hperm.map Prod.fst).nodup_iff).mpr hn
    exact List.pairwise_map.mp h1
  have hcat : (sortByKey l).Pairwise (fun a b => a.1 ++ a.2 ≤ b.1 ++ b.2) := by
    refine List.Pairwise.imp_of_mem ?_ (hle.and hne)
    intro a b ha hb hab
    have hlt : a.1 < b.1 := lt_of_le_of_ne hab.1 hab.2
    have hpre : ¬ a.1 <+: b.1 := fun hp =>
      hab.2 (h a (hperm.mem_iff.mp ha) b (hperm.mem_iff.mp hb) hp)
    exact le_of_lt (lex_append_of_lex a.2 b.2 hlt hpre)
  apply List.eq_of_perm_of_sorted (r := (· ≤ ·))
  · exact (List.perm_insertionSort _ _).trans (hperm.map _).symm
  · exact List.sorted_insertionSort _ _
  · exact List.pairwise_map.mpr hcat

/-! ## Facts about the access token and the signed message -/

set_option maxRecDepth 100000 in
theorem hexDigitValue_pair (v : Byte) :
    hexDigitValue (upperhex.getD (v.val / 16) 0) * 16
      + hexDigitValue (upperhex.getD (v.val % 16) 0) = v.val := by
  revert v
  decide

theorem upperHexEncode_injective {d1 d2 : List Byte}
    (h : upperHexEncode d1 = upperHexEncode d2) : d1 = d2 := by
  induction d1 generalizing d2 with
  | nil =>
    cases d2 with
    | nil => rfl
    | cons w t2 => simp [upperHexEncode] at h
  | cons v t ih =>
    cases d2 with
    | nil => simp [upperHexEncode] at h
    | cons w t2 =>
      unfold upperHexEncode at h
      simp only [List.flatMap_cons, List.cons_append, List.nil_append, List.cons.injEq] at h
      obtain ⟨h1, h2, h3⟩ := h
      have hv : v.val = w.val := by
        rw [← hexDigitValue_pair v, ← hexDigitValue_pair w, h1, h2]
      rw [Fin.ext hv, ih h3]

theorem setEntry_of_lookupEntry_none {V : Type} (k : Str) (v : V) (l : List (Str × V))
    (h : lookupEntry k l = none) : setEntry k v l = l ++ [(k, v)] := by
  induction l with
  | nil => rfl
  | cons e t ih =>
    by_cases h2 : e.1 = k
    · simp [lookupEntry, h2] at h
    · simp only [lookupEntry, h2, if_false] at h
      simp only [setEntry, h2, if_false, ih h, List.cons_append]

namespace Client

theorem reservedParams_SetAccessToken (me : Client) (now : Int) (T : Str) (hT : T ≠ []) :
    reservedParams (me.SetAccessToken T) now
      = (reservedParams (me.SetAccessToken []) now).set (str "access_token") T := by
  unfold reservedParams SetAccessToken
  simp [hT]

set_option maxRecDepth 100000 in
theorem get?_reservedParams_no_token (me : Client) (now : Int) :
    (reservedParams (me.SetAccessToken []) now).get? (str "access_token") = none := by
  unfold reservedParams SetAccessToken
  simp only [ne_eq, not_true_eq_false, if_false, GoMap.get?_set]
  rw [if_neg (by decide), if_neg (by decide), if_neg (by decide)]
  rfl

theorem length_signedMessage (o : Orders) (me : Client) (now : Int) (api : Str)
    (params : GoMap Str) :
    (signedMessage o me now api params).length
      = api.length + (((mergedParams o me now params).entries.map
          (fun e => e.1 ++ e.2)).flatten).length := by
  unfold signedMessage
  rw [stringsJoin_nil, List.length_append]
  congr 1
  apply List.Perm.length_eq
  apply List.Perm.flatten
  exact (List.perm_insertionSort _ _).trans (List.Perm.map _ (o.mergedToArr.perm _))

theorem mergedParams_with_token (o o2 : Orders) (me : Client) (now : Int) (params : GoMap Str)
    (T : Str) (hT : T ≠ []) (hp : params.get? (str "access_token") = none) :
    (mergedParams o (me.SetAccessToken T) now params).entries.Perm
      ((mergedParams o2 (me.SetAccessToken []) now params).entries
        ++ [(str "access_token", T)]) := by
  have hnone : lookupEntry (str "access_token")
      (mergedParams o2 (me.SetAccessToken []) now params).entries = none := by
    have := get?_mergedParams o2 (me.SetAccessToken []) now params (str "access_token")
    rw [hp, get?_reservedParams_no_token] at this
    exact this
  rw [← setEntry_of_lookupEntry_none _ T _ hnone]
  apply GoMap.perm_of_get?_eq _
    ((mergedParams o2 (me.SetAccessToken []) now params).set (str "access_token") T)
  intro a
  rw [GoMap.get?_set, get?_mergedParams, get?_mergedParams,
    reservedParams_SetAccessToken me now T hT, GoMap.get?_set]
  by_cases h : a = str "access_token"
  · rw [if_pos h, if_pos h, h, hp]
    rfl
  · rw [if_neg h, if_neg h]

end Client

/-! ## Facts about the encoded query -/

theorem mem_keys_of_lookupEntry {V : Type} (a : Str) (v : V) (l : List (Str × V))
    (h : lookupEntry a l = some v) : a ∈ l.map Prod.fst := by
  by_contra hn
  rw [lookupEntry_eq_none a l hn] at h
  exact Option.noConfusion h

theorem intercalate_cons_eq (sep p : Str) (ps : List Str) :
    sep.intercalate (p :: ps) = p ++ (ps.map (fun q => sep ++ q)).flatten := by
  unfold List.intercalate
  induction ps generalizing p with
  | nil => simp [List.intersperse]
  | cons q t ih =>
    have h := ih q
    simp only [List.intersperse, List.flatten_cons, List.map_cons] at h ⊢
    rw [h, List.append_assoc]

theorem foldl_amp_of_ne_nil (buf : Str) (ps : List Str) (hb : buf ≠ []) :
    ps.foldl (fun buf part => (if buf.length > 0 then buf ++ str "&" else buf) ++ part) buf
      = buf ++ (ps.map (fun q => str "&" ++ q)).flatten := by
  induction ps generalizing buf with
  | nil => simp
  | cons q t ih =>
    have hpos : buf.length > 0 := List.length_pos.mpr hb
    simp only [List.foldl_cons, if_pos hpos, List.map_cons, List.flatten_cons]
    rw [ih _ (by simp [hb])]
    simp only [List.append_assoc]

theorem Values.Encode_eq_join (r : RangeOrder) (v : Values) :
    Values.Encode r v = stringsJoin (Values.encodeParts r v) (str "&") := by
  have hne : ∀ p ∈ Values.encodeParts r v, p ≠ [] := by
    intro p hp
    unfold Values.encodeParts at hp
    rw [List.mem_flatMap] at hp
    obtain ⟨k, _, hk⟩ := hp
    rw [List.mem_map] at hk
    obtain ⟨x, _, rfl⟩ := hk
    have h1 : str "=" = [61] := rfl
    simp [h1]
  unfold Values.Encode stringsJoin
  generalize Values.encodeParts r v = ps at hne
  cases ps with
  | nil => rfl
  | cons p t =>
    have hp : p ≠ [] := hne p (List.mem_cons_self _ _)
    rw [intercalate_cons_eq]
    simp only [List.foldl_cons, List.length_nil, gt_iff_lt, lt_self_iff_false, if_false,
      List.nil_append]
    exact foldl_amp_of_ne_nil p t hp

theorem Values.mem_encodeParts (r : RangeOrder) (v : Values) (p : Str) :
    p ∈ Values.encodeParts r v ↔
      ∃ k xs x, v.get? k = some xs ∧ x ∈ xs ∧ p = QueryEscape k ++ str "=" ++ QueryEscape x := by
  unfold Values.encodeParts
  rw [List.mem_flatMap]
  constructor
  · rintro ⟨k, _, hk⟩
    rw [List.mem_map] at hk
    obtain ⟨x, hx, rfl⟩ := hk
    cases hg : v.get? k with
    | none => rw [hg] at hx; simp at hx
    | some xs =>
      rw [hg] at hx
      exact ⟨k, xs, x, hg, hx, rfl⟩
  · rintro ⟨k, xs, x, hg, hx, rfl⟩
    refine ⟨k, ?_, ?_⟩
    · have hk : k ∈ v.entries.map Prod.fst := mem_keys_of_lookupEntry k xs _ hg
      have hperm : (sortStrings ((r.enum v.entries).map Prod.fst)).Perm
          (v.entries.map Prod.fst) :=
        (List.perm_insertionSort _ _).trans (List.Perm.map _ (r.perm _))
      exact hperm.mem_iff.mpr hk
    · rw [List.mem_map]
      exact ⟨x, by rw [hg]; exact hx, rfl⟩

namespace Client

set_option maxRecDepth 100000 in
theorem get?_commonParams (o : Orders) (L : Lib) (me : Client) (now : Int) (api : Str)
    (params : GoMap Str) (a : Str) :
    (commonParams o L me now api params).get? a
      = reservedValue me (timestamp now) (signature o L me now api params) a := by
  have hempty : (GoMap.empty : GoMap Str).get? a = none := rfl
  have d1 : str "app_key" ≠ str "sign" := by decide
  have d2 : str "timestamp" ≠ str "sign" := by decide
  have d3 : str "sign_method" ≠ str "sign" := by decide
  have d4 : str "access_token" ≠ str "sign" := by decide
  have d5 : str "app_key" ≠ str "timestamp" := by decide
  have d6 : str "app_key" ≠ str "sign_method" := by decide
  have d7 : str "app_key" ≠ str "access_token" := by decide
  have d8 : str "timestamp" ≠ str "sign_method" := by decide
  have d9 : str "timestamp" ≠ str "access_token" := by decide
  have d10 : str "sign_method" ≠ str "access_token" := by decide
  have d1s := d1.symm
  have d2s := d2.symm
  have d3s := d3.symm
  have d4s := d4.symm
  have d5s := d5.symm
  have d6s := d6.symm
  have d7s := d7.symm
  have d8s := d8.symm
  have d9s := d9.symm
  have d10s := d10.symm
  unfold commonParams reservedParams reservedValue
  by_cases ht : me.accessToken = []
  · simp only [ht, ne_eq, not_true_eq_false, if_false, GoMap.get?_set, hempty, and_false]
    by_cases h1 : a = str "app_key"
    · subst h1
      simp only [d1, d5, d6, if_true, if_false]
    by_cases h2 : a = str "timestamp"
    · subst h2
      simp only [d2, d8, d5s, if_true, if_false]
    by_cases h3 : a = str "sign_method"
    · subst h3
      simp only [d3, d6s, d8s, if_true, if_false]
    simp only [h1, h2, h3, if_false]
  · simp only [ht, ne_eq, not_false_eq_true, if_true, GoMap.get?_set, hempty, and_true]
    by_cases h1 : a = str "app_key"
    · subst h1
      simp only [d1, d5, d6, d7, if_true, if_false]
    by_cases h2 : a = str "timestamp"
    · subst h2
      simp only [d2, d8, d9, d5s, if_true, if_false]
    by_cases h3 : a = str "sign_method"
    · subst h3
      simp only [d3, d10, d6s, d8s, if_true, if_false]
    by_cases h4 : a = str "access_token"
    · subst h4
      simp only [d4, d7s, d9s, d10s, if_true, if_false]
    simp only [h1, h2, h3, h4, if_false]

end Client

theorem ToUpper_GET (L : Lib) : ToUpper L (str "GET") = str "GET" := rfl

theorem ToUpper_POST (L : Lib) : ToUpper L (str "POST") ≠ str "GET" := by
  have h : ToUpper L (str "POST") = str "POST" := rfl
  rw [h]
  decide

namespace Client

theorem get?_queryValues_eq (o : Orders) (L : Lib) (me : Client) (now : Int) (method api : Str)
    (params : GoMap Str) (a : Str) :
    (queryValues o L me now method api params).get? a
      = (queryParameter me (timestamp now) (signature o L me now api params)
          (decide (ToUpper L method = str "GET")) params a).map (fun v => [v]) := by
  rw [get?_queryValues, get?_commonParams]
  unfold queryParameter
  by_cases h : ToUpper L method = str "GET"
  · simp only [h, if_true, decide_True]
  · simp only [h, if_false, decide_False, Bool.false_eq_true]

end Client

/-! ## Claims -/

set_option maxRecDepth 100000 in
/-- C1: the `sign` value stored by `buildQuery` is the upper-case hex encoding of the
HMAC-SHA256, keyed with the app secret, of the message made of the path followed by the
strings key+value of every entry of the merged reserved+call mapping, arranged in ascending
bytewise order and concatenated; on the specification example (app key `K`, secret `S`, no
token, timestamp `1000`, path `/product/item/get`, `item_id` = `123`) the message is
`/product/item/getapp_keyKitem_id123sign_methodsha256timestamp1000`. -/
theorem C1_sign_is_hmac_of_sorted_pairs :
    (∀ (o : Client.Orders) (L : Lib) (me : Client) (now : Int) (api : Str) (params : GoMap Str),
      ∃ arr : List Str,
        arr.Sorted (· ≤ ·) ∧
        arr.Perm ((Client.mergedParams o me now params).entries.map (fun e => e.1 ++ e.2)) ∧
        Client.signedMessage o me now api params = api ++ arr.flatten ∧
        Client.signature o L me now api params
          = upperHexEncode (L.hmacSHA256 me.appSecret (api ++ arr.flatten)) ∧
        (Client.commonParams o L me now api params).get? (str "sign")
          = some (Client.signature o L me now api params)) ∧
    Client.timestamp 1 = str "1000" ∧
    (∀ o : Client.Orders,
      Client.signedMessage o sampleClient 1 (str "/product/item/get") sampleParams
        = str "/product/item/getapp_keyKitem_id123sign_methodsha256timestamp1000") := by
  refine ⟨?_, by decide, ?_⟩
  · intro o L me now api params
    refine ⟨sortStrings (Client.signedStrings o me now params),
      List.sorted_insertionSort _ _, ?_, ?_, ?_, ?_⟩
    · exact (List.perm_insertionSort _ _).trans (List.Perm.map _ (o.mergedToArr.perm _))
    · unfold Client.signedMessage
      rw [stringsJoin_nil]
    · unfold Client.signature Client.signedMessage
      rw [ToUpper_hexEncode, stringsJoin_nil]
    · unfold Client.commonParams
      rw [GoMap.get?_set, if_pos rfl]
  · intro o
    rw [Client.signedMessage_order o Client.Orders.stored]
    decide

set_option maxRecDepth 100000 in
/-- C2, refuted as stated: for a GET with the call parameter `app_key` = `X` on a client whose
app key is `K`, the query carries `app_key=X`; the reserved parameter `app_key` with its
reserved value `K` is not in it. -/
theorem C2_query_holds_reserved_values_counterexample :
    (Client.reservedParams sampleClient 1).get? (str "app_key") = some (str "K") ∧
    Client.buildQuery Client.Orders.stored sampleLib sampleClient 1 (str "GET")
        (str "/product/item/get") collidingParams
      = str "app_key=X&sign=" ++ List.replicate 64 48 ++ str "&sign_method=sha256&timestamp=1000" ∧
    QueryEscape (str "app_key") ++ str "=" ++ QueryEscape (str "K")
      ∉ Values.encodeParts RangeOrder.stored
          (Client.queryValues Client.Orders.stored sampleLib sampleClient 1 (str "GET")
            (str "/product/item/get") collidingParams) ∧
    ∀ (o : Client.Orders) (L : Lib),
      (Client.queryValues o L sampleClient 1 (str "GET") (str "/product/item/get")
        collidingParams).get? (str "app_key") = some [str "X"] := by
  refine ⟨by decide, by decide, by decide, ?_⟩
  intro o L
  rw [Client.get?_queryValues, if_pos (ToUpper_GET L)]
  have h : collidingParams.get? (str "app_key") = some (str "X") := by decide
  rw [h]
  rfl

/-- C2, amended: the query string returned by `buildQuery` is the `&`-joined list of pieces
`QueryEscape(name)=QueryEscape(value)`, one for each parameter it holds, and it holds exactly
these: when the method upper-cases to `GET`, every call parameter with the caller's value and
every reserved parameter (`app_key`, `timestamp`, `sign_method`, the computed `sign`, and
`access_token` when the client's token is non-empty) whose name is not a call-parameter key,
with its reserved value; for any other method (`POST`) and for an empty call mapping, the
reserved parameters with their reserved values only. -/
theorem C2_query_parameters (o : Client.Orders) (L : Lib) (me : Client) (now : Int)
    (method api : Str) (params : GoMap Str) :
    Client.buildQuery o L me now method api params
      = stringsJoin (Values.encodeParts o.encodeKeys
          (Client.queryValues o L me now method api params)) (str "&") ∧
    (∀ p, p ∈ Values.encodeParts o.encodeKeys (Client.queryValues o L me now method api params) ↔
      ∃ k v, queryParameter me (Client.timestamp now) (Client.signature o L me now api params)
          (decide (ToUpper L method = str "GET")) params k = some v ∧
        p = QueryEscape k ++ str "=" ++ QueryEscape v) ∧
    (∀ k, (Client.queryValues o L me now (str "GET") api params).get? k
      = ((params.get? k).or (reservedValue me (Client.timestamp now)
          (Client.signature o L me now api params) k)).map (fun v => [v])) ∧
    (∀ k, (Client.queryValues o L me now (str "POST") api params).get? k
      = (reservedValue me (Client.timestamp now)
          (Client.signature o L me now api params) k).map (fun v => [v])) ∧
    (∀ k, (Client.queryValues o L me now method api GoMap.empty).get? k
      = (reservedValue me (Client.timestamp now)
          (Client.signature o L me now api GoMap.empty) k).map (fun v => [v])) := by
  refine ⟨Values.Encode_eq_join _ _, ?_, ?_, ?_, ?_⟩
  · intro p
    rw [Values.mem_encodeParts]
    constructor
    · rintro ⟨k, xs, x, hg, hx, rfl⟩
      rw [Client.get?_queryValues_eq] at hg
      cases hq : queryParameter me (Client.timestamp now)
          (Client.signature o L me now api params)
          (decide (ToUpper L method = str "GET")) params k with
      | none => rw [hq] at hg; exact Option.noConfusion hg
      | some v =>
        rw [hq] at hg
        simp only [Option.map_some', Option.some.injEq] at hg
        subst hg
        simp only [List.mem_singleton] at hx
        subst hx
        exact ⟨k, x, hq, rfl⟩
    · rintro ⟨k, v, hq, rfl⟩
      refine ⟨k, [v], v, ?_, List.mem_singleton_self v, rfl⟩
      rw [Client.get?_queryValues_eq, hq]
      rfl
  · intro k
    rw [Client.get?_queryValues, if_pos (ToUpper_GET L), Client.get?_commonParams]
  · intro k
    rw [Client.get?_queryValues, if_neg (ToUpper_POST L), Client.get?_commonParams]
  · intro k
    rw [Client.get?_queryValues, Client.get?_commonParams]
    have h : (GoMap.empty : GoMap Str).get? k = none := rfl
    rw [h]
    split <;> rfl

set_option maxRecDepth 100000 in
/-- C3, refuted as stated: with app key `K` and a call parameter `app_key` = `X`, the value
the merged mapping holds for `app_key` is the caller-supplied `X`, not the reserved `K`. -/
theorem C3_reserved_value_wins_counterexample :
    (Client.reservedParams sampleClient 1).get? (str "app_key") = some (str "K") ∧
    collidingParams.get? (str "app_key") = some (str "X") ∧
    (Client.mergedParams Client.Orders.stored sampleClient 1 collidingParams).get? (str "app_key")
      = some (str "X") ∧
    (Client.mergedParams Client.Orders.stored sampleClient 1 collidingParams).get? (str "app_key")
      ≠ (Client.reservedParams sampleClient 1).get? (str "app_key") := by
  decide

/-- C3, amended: for every call-parameter mapping that holds a value under some key (a reserved
name such as `app_key`, `timestamp`, `sign_method`, `access_token`, or any other), the merged
mapping that is signed holds the caller-supplied value under that key, whatever the order the
maps are enumerated in. -/
theorem C3_caller_value_wins (o : Client.Orders) (me : Client) (now : Int) (params : GoMap Str)
    (k v : Str) (h : params.get? k = some v) :
    (Client.mergedParams o me now params).get? k = some v := by
  rw [Client.get?_mergedParams, h]
  rfl

set_option maxRecDepth 100000 in
/-- C3, amended, instantiated: the call parameter `app_key` = `X` survives the merge. -/
theorem C3_caller_value_wins_witness :
    collidingParams.get? (str "app_key") = some (str "X") ∧
    (Client.mergedParams Client.Orders.reversed sampleClient 1 collidingParams).get?
      (str "app_key") = some (str "X") :=
  ⟨by decide,
    C3_caller_value_wins Client.Orders.reversed sampleClient 1 collidingParams (str "app_key")
      (str "X") (by decide)⟩

/-- C4: for a fixed clock reading (hence a fixed timestamp), the signature and the query
string returned by `buildQuery` are the same whatever order each `range` statement
enumerates the reserved, merged, call-parameter and value maps in. -/
theorem C4_buildQuery_deterministic (o o2 : Client.Orders) (L : Lib) (me : Client) (now : Int)
    (method api : Str) (params : GoMap Str) :
    Client.signature o L me now api params = Client.signature o2 L me now api params ∧
    Client.buildQuery o L me now method api params
      = Client.buildQuery o2 L me now method api params := by
  refine ⟨Client.signature_order o o2 L me now api params, ?_⟩
  unfold Client.buildQuery Values.Encode
  rw [Client.encodeParts_congr o.encodeKeys o2.encodeKeys
    (Client.queryValues o L me now method api params)
    (Client.queryValues o2 L me now method api params) (fun a => by
      rw [Client.get?_queryValues, Client.get?_queryValues, Client.commonParams_order o o2])]

/-- C5: when HMAC-SHA256 returns 32-byte digests, the `sign` value produced by `buildQuery`
has exactly 64 characters and each of them is one of `0`-`9` or `A`-`F`. -/
theorem C5_sign_is_64_upper_hex (o : Client.Orders) (L : Lib) (me : Client) (now : Int)
    (api : Str) (params : GoMap Str) (h : ∀ key msg, (L.hmacSHA256 key msg).length = 32) :
    (Client.signature o L me now api params).length = 64 ∧
    ∀ c ∈ Client.signature o L me now api params, isUpperHexDigit c := by
  unfold Client.signature
  rw [ToUpper_hexEncode]
  exact ⟨by rw [length_upperHexEncode, h], upperHexEncode_digits _⟩

/-- C5, instantiated on the specification example with 32-byte digests. -/
theorem C5_sign_is_64_upper_hex_witness :
    (∀ key msg, (sampleLib.hmacSHA256 key msg).length = 32) ∧
    (Client.signature Client.Orders.stored sampleLib sampleClient 1 (str "/product/item/get")
      sampleParams).length = 64 ∧
    ∀ c ∈ Client.signature Client.Orders.stored sampleLib sampleClient 1
      (str "/product/item/get") sampleParams, isUpperHexDigit c :=
  ⟨fun _ _ => rfl,
    C5_sign_is_64_upper_hex Client.Orders.stored sampleLib sampleClient 1
      (str "/product/item/get") sampleParams (fun _ _ => rfl)⟩

set_option maxRecDepth 100000 in
/-- C6, refuted as stated: when the call parameters themselves hold `access_token` = `X`,
the client with token `T` and the client with no token sign the same message, so they
produce the same signature under every HMAC. -/
theorem C6_token_changes_signature_counterexample :
    str "T" ≠ [] ∧
    Client.signedMessage Client.Orders.stored (sampleClient.SetAccessToken (str "T")) 1
        (str "/product/item/get") tokenParams
      = Client.signedMessage Client.Orders.stored (sampleClient.SetAccessToken []) 1
        (str "/product/item/get") tokenParams ∧
    ∀ L : Lib,
      Client.signature Client.Orders.stored L (sampleClient.SetAccessToken (str "T")) 1
          (str "/product/item/get") tokenParams
        = Client.signature Client.Orders.stored L (sampleClient.SetAccessToken []) 1
          (str "/product/item/get") tokenParams := by
  have h : Client.signedMessage Client.Orders.stored (sampleClient.SetAccessToken (str "T")) 1
        (str "/product/item/get") tokenParams
      = Client.signedMessage Client.Orders.stored (sampleClient.SetAccessToken []) 1
        (str "/product/item/get") tokenParams := by decide
  refine ⟨by decide, h, ?_⟩
  intro L
  unfold Client.signature
  rw [h]
  rfl

/-- C6, amended: holding app key, secret, clock reading, path and call parameters fixed, for
every non-empty token `T` and every call-parameter mapping without a key `access_token`, the
reserved parameters of the client holding `T` differ from those of the client holding no token
(they gain `access_token` = `T`), the signed message is longer by the length of
`access_token` plus the length of `T` and therefore differs, and the two signatures differ
exactly when HMAC-SHA256 gives the two messages different digests. -/
theorem C6_token_changes_signed_message (o o2 : Client.Orders) (L : Lib) (me : Client) (now : Int)
    (api : Str) (params : GoMap Str) (T : Str) (hT : T ≠ [])
    (hp : params.get? (str "access_token") = none) :
    (Client.reservedParams (me.SetAccessToken T) now).get? (str "access_token") = some T ∧
    (Client.reservedParams (me.SetAccessToken []) now).get? (str "access_token") = none ∧
    (Client.signedMessage o (me.SetAccessToken T) now api params).length
      = (Client.signedMessage o2 (me.SetAccessToken []) now api params).length + 12 + T.length ∧
    Client.signedMessage o (me.SetAccessToken T) now api params
      ≠ Client.signedMessage o2 (me.SetAccessToken []) now api params ∧
    (Client.signature o L (me.SetAccessToken T) now api params
        ≠ Client.signature o2 L (me.SetAccessToken []) now api params ↔
      L.hmacSHA256 me.appSecret (Client.signedMessage o (me.SetAccessToken T) now api params)
        ≠ L.hmacSHA256 me.appSecret
            (Client.signedMessage o2 (me.SetAccessToken []) now api params)) := by
  have hlen : (Client.signedMessage o (me.SetAccessToken T) now api params).length
      = (Client.signedMessage o2 (me.SetAccessToken []) now api params).length + 12
        + T.length := by
    rw [Client.length_signedMessage, Client.length_signedMessage,
      ((Client.mergedParams_with_token o o2 me now params T hT hp).map
        (fun e => e.1 ++ e.2)).flatten.length_eq]
    have h12 : (str "access_token").length = 12 := rfl
    simp only [List.map_append, List.map_cons, List.map_nil, List.flatten_append,
      List.flatten_cons, List.flatten_nil, List.append_nil, List.length_append, h12]
    omega
  refine ⟨?_, Client.get?_reservedParams_no_token me now, hlen, ?_, ?_⟩
  · rw [Client.reservedParams_SetAccessToken me now T hT, GoMap.get?_set, if_pos rfl]
  · intro heq
    rw [heq] at hlen
    omega
  · unfold Client.signature
    rw [ToUpper_hexEncode, ToUpper_hexEncode]
    have hs1 : (me.SetAccessToken T).appSecret = me.appSecret := rfl
    have hs2 : (me.SetAccessToken []).appSecret = me.appSecret := rfl
    rw [hs1, hs2]
    constructor
    · intro h1 h2
      exact h1 (by rw [h2])
    · intro h1 h2
      exact h1 (upperHexEncode_injective h2)

set_option maxRecDepth 100000 in
/-- C6, amended, instantiated on the specification example with the token `T`. -/
theorem C6_token_changes_signed_message_witness :
    str "T" ≠ [] ∧ sampleParams.get? (str "access_token") = none ∧
    Client.signedMessage Client.Orders.stored (sampleClient.SetAccessToken (str "T")) 1
        (str "/product/item/get") sampleParams
      ≠ Client.signedMessage Client.Orders.reversed (sampleClient.SetAccessToken []) 1
        (str "/product/item/get") sampleParams :=
  ⟨by decide, by decide,
    (C6_token_changes_signed_message Client.Orders.stored Client.Orders.reversed sampleLib
      sampleClient 1 (str "/product/item/get") sampleParams (str "T") (by decide)
      (by decide)).2.2.2.1⟩

/-- C7: whenever the response to the request has a body that contains `AppCallLimit`
anywhere, `get` and `post` both return the error `rate limit exceeded`, whatever the status,
the bytes around the marker and the error reported by reading the body. -/
theorem C7_rate_limit_marker (me : Client) (net : Client.Net) (url : Str) (data : GoMap Str)
    (dataOrder encodeOrder : RangeOrder) (status before after : Str) (readErr : Option Client.GoError) :
    (net.respond (Client.getRequest me url)
        = Except.ok ⟨status, before ++ str "AppCallLimit" ++ after, readErr⟩ →
      (Client.get me net url).1.2 = some (Client.GoError.new (str "rate limit exceeded"))) ∧
    (net.respond (Client.postRequest dataOrder encodeOrder url data)
        = Except.ok ⟨status, before ++ str "AppCallLimit" ++ after, readErr⟩ →
      (Client.post dataOrder encodeOrder me net url data).1.2
        = some (Client.GoError.new (str "rate limit exceeded"))) := by
  have hc : stringsContains (before ++ str "AppCallLimit" ++ after) (str "AppCallLimit") = true :=
    (stringsContains_iff _ _).mpr ⟨before, after, rfl⟩
  constructor
  · intro h
    simp only [Client.get, Client.Net.roundTrip, h, hc, if_true]
  · intro h
    simp only [Client.post, Client.Net.roundTrip, h, hc, if_true]

set_option maxRecDepth 100000 in
/-- C7, instantiated: a status-200 body that holds `AppCallLimit` between brackets, read
with an error. -/
theorem C7_rate_limit_marker_witness :
    (Client.get sampleClient
        ⟨fun _ => Except.ok ⟨str "200 OK", str "[1, " ++ str "AppCallLimit" ++ str "]",
          some (Client.GoError.new (str "unexpected EOF"))⟩, []⟩
        (str "https://api.lazada.vn/rest/seller/get")).1.2
      = some (Client.GoError.new (str "rate limit exceeded")) ∧
    (Client.post RangeOrder.stored RangeOrder.stored sampleClient
        ⟨fun _ => Except.ok ⟨str "200 OK", str "[1, " ++ str "AppCallLimit" ++ str "]",
          some (Client.GoError.new (str "unexpected EOF"))⟩, []⟩
        (str "https://api.lazada.vn/rest/product/remove") sampleParams).1.2
      = some (Client.GoError.new (str "rate limit exceeded")) :=
  ⟨(C7_rate_limit_marker sampleClient _ (str "https://api.lazada.vn/rest/seller/get")
      sampleParams RangeOrder.stored RangeOrder.stored (str "200 OK") (str "[1, ")
      (str "]") (some (Client.GoError.new (str "unexpected EOF")))).1 rfl,
   (C7_rate_limit_marker sampleClient _ (str "https://api.lazada.vn/rest/product/remove")
      sampleParams RangeOrder.stored RangeOrder.stored (str "200 OK") (str "[1, ")
      (str "]") (some (Client.GoError.new (str "unexpected EOF")))).2 rfl⟩

/-- C8: on a client whose access token is empty, when the POST returns a body without error
and the body decodes as a token, `GetAccessToken` returns that token with a nil error and
the client afterwards holds the token's access-token field, every other field unchanged;
when the POST returns an error, or the body does not decode, it returns a nil token with the
wrapped error and the client is unchanged. -/
theorem C8_token_exchange {Token : Type} (o : Client.Orders) (dataOrder encodeOrder : RangeOrder)
    (L : Lib) (T : Client.TokenCodec Token) (now : Int) (me : Client) (net : Client.Net)
    (code : Str) (h : me.accessToken = []) :
    (∀ body token,
      (Client.post dataOrder encodeOrder me net (tokenURL o L me now code) (tokenData code)).1
          = (body, none) →
      T.unmarshal body = Except.ok token →
      (Client.GetAccessToken o dataOrder encodeOrder L T now me net code).token = some token ∧
      (Client.GetAccessToken o dataOrder encodeOrder L T now me net code).err = none ∧
      (Client.GetAccessToken o dataOrder encodeOrder L T now me net code).client
        = { baseURL := me.baseURL, authURL := me.authURL, callbackURL := me.callbackURL,
            appKey := me.appKey, appSecret := me.appSecret,
            accessToken := T.accessTokenOf token, Debug := me.Debug }) ∧
    (∀ body err,
      (Client.post dataOrder encodeOrder me net (tokenURL o L me now code) (tokenData code)).1
          = (body, some err) →
      (Client.GetAccessToken o dataOrder encodeOrder L T now me net code).token = none ∧
      (Client.GetAccessToken o dataOrder encodeOrder L T now me net code).err
        = some (Client.GoError.wrap err []) ∧
      (Client.GetAccessToken o dataOrder encodeOrder L T now me net code).client = me) ∧
    (∀ body err,
      (Client.post dataOrder encodeOrder me net (tokenURL o L me now code) (tokenData code)).1
          = (body, none) →
      T.unmarshal body = Except.error err →
      (Client.GetAccessToken o dataOrder encodeOrder L T now me net code).token = none ∧
      (Client.GetAccessToken o dataOrder encodeOrder L T now me net code).err
        = some (Client.GoError.wrap err []) ∧
      (Client.GetAccessToken o dataOrder encodeOrder L T now me net code).client = me) := by
  have hne : ¬ (me.accessToken ≠ []) := fun h2 => h2 h
  have hdata : (GoMap.empty : GoMap Str).set (str "code") code = tokenData code := rfl
  refine ⟨?_, ?_, ?_⟩
  · intro body token hp hu
    unfold Client.GetAccessToken
    simp only [if_neg hne, hdata]
    unfold tokenURL at hp
    generalize Client.post dataOrder encodeOrder me net _ (tokenData code) = r at hp ⊢
    obtain ⟨⟨b, e⟩, n⟩ := r
    simp only [Prod.mk.injEq] at hp
    obtain ⟨rfl, rfl⟩ := hp
    simp only [hu]
    simp [Client.SetAccessToken, Client.errorsWrap]
  · intro body err hp
    unfold Client.GetAccessToken
    simp only [if_neg hne, hdata]
    unfold tokenURL at hp
    generalize Client.post dataOrder encodeOrder me net _ (tokenData code) = r at hp ⊢
    obtain ⟨⟨b, e⟩, n⟩ := r
    simp only [Prod.mk.injEq] at hp
    obtain ⟨rfl, rfl⟩ := hp
    simp [Client.errorsWrap]
  · intro body err hp hu
    unfold Client.GetAccessToken
    simp only [if_neg hne, hdata]
    unfold tokenURL at hp
    generalize Client.post dataOrder encodeOrder me net _ (tokenData code) = r at hp ⊢
    obtain ⟨⟨b, e⟩, n⟩ := r
    simp only [Prod.mk.injEq] at hp
    obtain ⟨rfl, rfl⟩ := hp
    simp only [hu]
    simp [Client.SetAccessToken, Client.errorsWrap]

set_option maxRecDepth 100000 in
/-- C8, instantiated: a fresh client exchanges a code against a network that answers `tok`;
the token is returned and stored, the app key and secret stay. -/
theorem C8_token_exchange_witness :
    sampleClient.accessToken = [] ∧
    (Client.GetAccessToken Client.Orders.stored RangeOrder.stored RangeOrder.stored sampleLib
      plainCodec 1 sampleClient (answering (str "tok")) (str "c")).token = some (str "tok") ∧
    (Client.GetAccessToken Client.Orders.stored RangeOrder.stored RangeOrder.stored sampleLib
      plainCodec 1 sampleClient (answering (str "tok")) (str "c")).err = none ∧
    (Client.GetAccessToken Client.Orders.stored RangeOrder.stored RangeOrder.stored sampleLib
      plainCodec 1 sampleClient (answering (str "tok")) (str "c")).client
      = { baseURL := sampleClient.baseURL, authURL := sampleClient.authURL,
          callbackURL := sampleClient.callbackURL, appKey := sampleClient.appKey,
          appSecret := sampleClient.appSecret, accessToken := str "tok",
          Debug := sampleClient.Debug } :=
  ⟨rfl,
    (C8_token_exchange Client.Orders.stored RangeOrder.stored RangeOrder.stored sampleLib
      plainCodec 1 sampleClient (answering (str "tok")) (str "c") rfl).1 (str "tok") (str "tok")
      (by decide) rfl⟩

/-- C9: called on a client that already holds an access token, `GetAccessToken` returns a nil
token with a nil error, sends no request and leaves the client as it was. -/
theorem C9_token_already_set {Token : Type} (o : Client.Orders) (dataOrder encodeOrder : RangeOrder)
    (L : Lib) (T : Client.TokenCodec Token) (now : Int) (me : Client) (net : Client.Net)
    (code : Str) (h : me.accessToken ≠ []) :
    (Client.GetAccessToken o dataOrder encodeOrder L T now me net code).token = none ∧
    (Client.GetAccessToken o dataOrder encodeOrder L T now me net code).err = none ∧
    (Client.GetAccessToken o dataOrder encodeOrder L T now me net code).client = me ∧
    (Client.GetAccessToken o dataOrder encodeOrder L T now me net code).net.sent = net.sent := by
  unfold Client.GetAccessToken
  rw [if_pos h]
  exact ⟨rfl, rfl, rfl, rfl⟩

set_option maxRecDepth 100000 in
/-- C9, instantiated: the client already holds the token `T`; nothing is sent. -/
theorem C9_token_already_set_witness :
    (sampleClient.SetAccessToken (str "T")).accessToken ≠ [] ∧
    (Client.GetAccessToken Client.Orders.stored RangeOrder.stored RangeOrder.stored sampleLib
      plainCodec 1 (sampleClient.SetAccessToken (str "T")) (answering (str "tok")) (str "c")).token
      = none ∧
    (Client.GetAccessToken Client.Orders.stored RangeOrder.stored RangeOrder.stored sampleLib
      plainCodec 1 (sampleClient.SetAccessToken (str "T")) (answering (str "tok")) (str "c")).net.sent
      = [] :=
  ⟨by decide,
    (C9_token_already_set Client.Orders.stored RangeOrder.stored RangeOrder.stored sampleLib
      plainCodec 1 (sampleClient.SetAccessToken (str "T")) (answering (str "tok")) (str "c")
      (by decide)).1,
    (C9_token_already_set Client.Orders.stored RangeOrder.stored RangeOrder.stored sampleLib
      plainCodec 1 (sampleClient.SetAccessToken (str "T")) (answering (str "tok")) (str "c")
      (by decide)).2.2.2⟩

set_option maxRecDepth 100000 in
/-- C10: when no key of the merged mapping is a proper initial segment of another key,
arranging the key+value strings in ascending order (as `buildQuery` does) gives the same
sequence as arranging the entries by key alone, so the signed message is the path followed
by key+value in ascending key order; for the mapping with `a` = `z` and `ab` empty, where `a`
is a proper initial segment of `ab`, the two arrangements differ. -/
theorem C10_sorting_pairs_vs_sorting_keys :
    (∀ (o : Client.Orders) (me : Client) (now : Int) (api : Str) (params : GoMap Str),
      NoKeyExtends (Client.mergedParams o me now params).entries →
      sortStrings (Client.signedStrings o me now params)
          = (sortByKey (Client.mergedParams o me now params).entries).map (fun e => e.1 ++ e.2) ∧
      Client.signedMessage o me now api params
          = api ++ ((sortByKey (Client.mergedParams o me now params).entries).map
              (fun e => e.1 ++ e.2)).flatten) ∧
    (∀ m : GoMap Str, NoKeyExtends m.entries →
      sortStrings (m.entries.map (fun e => e.1 ++ e.2))
          = (sortByKey m.entries).map (fun e => e.1 ++ e.2)) ∧
    (¬ NoKeyExtends extendingParams.entries ∧
      sortStrings (extendingParams.entries.map (fun e => e.1 ++ e.2)) = [str "ab", str "az"] ∧
      (sortByKey extendingParams.entries).map (fun e => e.1 ++ e.2) = [str "az", str "ab"]) := by
  refine ⟨?_, ?_, ?_⟩
  · intro o me now api params h
    have h1 : sortStrings (Client.signedStrings o me now params)
        = (sortByKey (Client.mergedParams o me now params).entries).map
            (fun e => e.1 ++ e.2) := by
      rw [← sortStrings_eq_sortByKey _ (Client.mergedParams o me now params).nodup h]
      exact sortStrings_perm (List.Perm.map _ (o.mergedToArr.perm _))
    refine ⟨h1, ?_⟩
    unfold Client.signedMessage
    rw [stringsJoin_nil, h1]
  · intro m h
    exact sortStrings_eq_sortByKey _ m.nodup h
  · unfold NoKeyExtends
    decide

set_option maxRecDepth 100000 in
/-- C10, instantiated on the specification example, whose merged keys are `app_key`,
`timestamp`, `sign_method` and `item_id`. -/
theorem C10_sorting_pairs_vs_sorting_keys_witness :
    NoKeyExtends (Client.mergedParams Client.Orders.stored sampleClient 1 sampleParams).entries ∧
    Client.signedMessage Client.Orders.stored sampleClient 1 (str "/product/item/get") sampleParams
      = str "/product/item/get" ++
          ((sortByKey (Client.mergedParams Client.Orders.stored sampleClient 1
            sampleParams).entries).map (fun e => e.1 ++ e.2)).flatten :=
  ⟨by unfold NoKeyExtends; decide,
    (C10_sorting_pairs_vs_sorting_keys.1 Client.Orders.stored sampleClient 1
      (str "/product/item/get") sampleParams (by unfold NoKeyExtends; decide)).2⟩

end Lazada
